import Mathlib

/-!
Verification of the content-draft comparison tool (`src/main.py`).

The Python source works on strings; we embed it shallowly: Python `str`
becomes `String` (reasoning happens on `String.data : List Char`), Python
dicts with the fixed canonical keys become a structure, Python floats used
for similarity ratios and thresholds become `ℚ`, and the one external
network call is reified as a constructor of an outcome type.
-/

set_option maxHeartbeats 1000000

/-- Python whitespace for `str.strip` / `\s`, restricted to the ASCII range
(space, tab, newline, carriage return, vertical tab, form feed). -/
def isPySpace (c : Char) : Bool :=
  c = ' ' || c = '\t' || c = '\n' || c = '\r' || c = '\x0b' || c = '\x0c'

/-- Upper-to-lower table for ASCII letters. -/
def lowerTable : List (Char × Char) :=
  [('A', 'a'), ('B', 'b'), ('C', 'c'), ('D', 'd'), ('E', 'e'), ('F', 'f'),
   ('G', 'g'), ('H', 'h'), ('I', 'i'), ('J', 'j'), ('K', 'k'), ('L', 'l'),
   ('M', 'm'), ('N', 'n'), ('O', 'o'), ('P', 'p'), ('Q', 'q'), ('R', 'r'),
   ('S', 's'), ('T', 't'), ('U', 'u'), ('V', 'v'), ('W', 'w'), ('X', 'x'),
   ('Y', 'y'), ('Z', 'z')]

/-- Python `str.lower`, restricted to ASCII letters (the only case-bearing
characters the program's trigger keys involve). -/
def pyLowerChar (c : Char) : Char :=
  ((lowerTable.find? (fun p => p.1 = c)).map Prod.snd).getD c

/-- Left strip: Python `str.lstrip()` on the character list. -/
def lstripL (l : List Char) : List Char := l.dropWhile isPySpace

/-- Right strip: Python `str.rstrip()` on the character list. -/
def rstripL : List Char → List Char
  | [] => []
  | c :: rest =>
    match rstripL rest with
    | [] => if isPySpace c then [] else [c]
    | r => c :: r

/-- Python `str.strip()` on the character list. -/
def pyStripL (l : List Char) : List Char := rstripL (lstripL l)

/-- Python `str.strip()`. -/
def pyStripS (s : String) : String := ⟨pyStripL s.data⟩

/-- Python `str.lower()`. -/
def pyLowerS (s : String) : String := ⟨s.data.map pyLowerChar⟩

/-- The ASCII uppercase letters. -/
def ucChars : List Char := "ABCDEFGHIJKLMNOPQRSTUVWXYZ".data

/-- The ASCII lowercase letters. -/
def lcChars : List Char := "abcdefghijklmnopqrstuvwxyz".data

/-- Pattern-prefix test on character lists (used for the fixed regex literal). -/
def leadsWith : List Char → List Char → Bool
  | [], _ => true
  | _ :: _, [] => false
  | p :: ps, c :: cs => p = c && leadsWith ps cs

/-- The literal part of the regex `\(Character limit.*?\)` in `clean_label_text`
and `try_extract_inline_meta`. -/
def charLimitPat : List Char := "(Character limit".data

/-- The non-greedy `.*?\)` step: after the literal has matched, find the first
`)` (a `.` cannot cross a newline); return the characters after it. -/
def findStop : List Char → Option (List Char)
  | [] => none
  | c :: rest =>
    if c = ')' then some rest
    else if c = '\n' then none
    else findStop rest

/-- One left-to-right pass of `re.sub(r"\(Character limit.*?\)", "", txt)`:
at each position, if the pattern matches, drop the match and continue after
it; otherwise keep the character and move on.  The `Nat` argument is fuel
(structural recursion); callers pass the list length, which always suffices
because each step consumes at least one character. -/
def subAux : Nat → List Char → List Char
  | 0, l => l
  | _ + 1, [] => []
  | fuel + 1, c :: rest =>
    if leadsWith charLimitPat (c :: rest) then
      match findStop ((c :: rest).drop charLimitPat.length) with
      | some r2 => subAux fuel r2
      | none => c :: subAux fuel rest
    else c :: subAux fuel rest

/-- `re.sub(r"\(Character limit.*?\)", "", txt)` on a character list. -/
def subCharLimitL (l : List Char) : List Char := subAux l.length l

/-- `re.sub(r"\(Character limit.*?\)", "", txt)`. -/
def subCharLimitS (s : String) : String := ⟨subCharLimitL s.data⟩

/-- `clean_label_text` from the source: remove `(Character limit...)`
annotations, remove remaining parentheses, strip, lowercase. -/
def clean_label_text (txt : String) : String :=
  ⟨(pyStripL (((subCharLimitL txt.data).filter (· ≠ '(')).filter (· ≠ ')'))).map pyLowerChar⟩

/-- The `triggers` dict, written identically in `try_extract_inline_meta` and
`parse_meta_fields_from_row`. -/
def triggers (label : String) : Option String :=
  if label = "meta title" then some "Meta Title"
  else if label = "title tag" then some "Meta Title"
  else if label = "meta description" then some "Meta Description"
  else if label = "existing url" then some "URL"
  else if label = "url" then some "URL"
  else if label = "h1" then some "H1"
  else none

/-- The `possible_labels` dict of `parse_paragraphs_for_meta` (note: only four
keys, unlike the six-key `triggers` dict). -/
def possible_labels (label : String) : Option String :=
  if label = "meta title" then some "Meta Title"
  else if label = "meta description" then some "Meta Description"
  else if label = "h1" then some "H1"
  else if label = "url" then some "URL"
  else none

/-- The metadata dict.  `extract_content` initialises it with the keys
`Meta Title`, `Meta Description` and `URL` mapped to `""`; an `H1` key may be
added later by a trigger, which we model with an `Option`. -/
structure Meta where
  metaTitle : String := ""
  metaDescription : String := ""
  url : String := ""
  h1 : Option String := none
deriving DecidableEq

/-- `meta[field] = value` for the four canonical field names. -/
def setMeta (m : Meta) (field value : String) : Meta :=
  if field = "Meta Title" then { m with metaTitle := value }
  else if field = "Meta Description" then { m with metaDescription := value }
  else if field = "URL" then { m with url := value }
  else if field = "H1" then { m with h1 := some value }
  else m

/-- `meta.get(field)` on the canonical dict. -/
def getMeta (m : Meta) (field : String) : Option String :=
  if field = "Meta Title" then some m.metaTitle
  else if field = "Meta Description" then some m.metaDescription
  else if field = "URL" then some m.url
  else if field = "H1" then m.h1
  else none

/-- `try_extract_inline_meta` from the source.  The Python function mutates
`meta` and returns a `bool`; since the stored pair is a pure function of the
line, we return `some (field, value)` for `True` and `none` for `False`, and
the caller performs the store.  Python's `split(":", 1)` becomes
take/drop at the first colon; `line_no_brackets` (bound once in Python) is
written out at each use. -/
def try_extract_inline_meta (line : String) : Option (String × String) :=
  if ':' ∈ subCharLimitL line.data then
    match triggers ⟨(pyStripL ((subCharLimitL line.data).takeWhile (· ≠ ':'))).map pyLowerChar⟩ with
    | some field =>
      some (field, ⟨pyStripL (((subCharLimitL line.data).dropWhile (· ≠ ':')).tail)⟩)
    | none => none
  else none

/-- `re.match(r'^(H[1-6]):\s*(.*)', line, flags=re.IGNORECASE)`: on success
returns `(group(1).upper(), group(2))`.  `\s*` greedily eats whitespace
(including newlines) and `(.*)` then captures up to the next newline. -/
def headingMatch (line : String) : Option (String × String) :=
  match line.data with
  | c1 :: c2 :: c3 :: rest =>
    if (c1 = 'H' || c1 = 'h') && ('1' ≤ c2 && c2 ≤ '6') && c3 = ':' then
      some (⟨['H', c2]⟩, ⟨(rest.dropWhile isPySpace).takeWhile (· ≠ '\n')⟩)
    else none
  | _ => none

/-- The mutable triple `(meta, headings, paragraphs)` threaded through the
parsing functions. -/
structure ParseState where
  meta : Meta := {}
  headings : List (String × String) := []
  paragraphs : List String := []
deriving DecidableEq

/-- `parse_paragraphs_for_meta` from the source: the body-level cursor loop.
The index cursor becomes recursion on the list of remaining lines; `i += 2`
skips the consumed value line.  The loop body reads `lines[i+1]`, so the two
non-empty patterns distinguish whether a following line exists (when it does
not, a standalone label just advances and the loop then terminates). -/
def parse_paragraphs_for_meta : List String → ParseState → ParseState
  | [], st => st
  | [l], st =>
    let line := pyStripS l
    if line = "" then st
    else
      match possible_labels (clean_label_text line) with
      | some _ => st
      | none =>
        match try_extract_inline_meta line with
        | some (field, value) => { st with meta := setMeta st.meta field value }
        | none =>
          match headingMatch line with
          | some (tag, g2) => { st with headings := st.headings ++ [(tag, pyStripS g2)] }
          | none => { st with paragraphs := st.paragraphs ++ [line] }
  | l :: next :: rest2, st =>
    let line := pyStripS l
    if line = "" then parse_paragraphs_for_meta (next :: rest2) st
    else
      match possible_labels (clean_label_text line) with
      | some label_key =>
        let next_line := pyStripS next
        if (possible_labels (clean_label_text next_line)).isNone then
          parse_paragraphs_for_meta rest2
            { st with meta := setMeta st.meta label_key next_line }
        else parse_paragraphs_for_meta (next :: rest2) st
      | none =>
        match try_extract_inline_meta line with
        | some (field, value) =>
          parse_paragraphs_for_meta (next :: rest2) { st with meta := setMeta st.meta field value }
        | none =>
          match headingMatch line with
          | some (tag, g2) =>
            parse_paragraphs_for_meta (next :: rest2)
              { st with headings := st.headings ++ [(tag, pyStripS g2)] }
          | none =>
            parse_paragraphs_for_meta (next :: rest2)
              { st with paragraphs := st.paragraphs ++ [line] }

/-- `parse_meta_fields_from_row` from the source: `while i < len(cells) - 1`,
advancing by two on a trigger hit and one otherwise, so the last cell is only
ever read as a value. -/
def parse_meta_fields_from_row : List String → Meta → Meta
  | label_cell :: value_cell :: rest, meta =>
    match triggers (clean_label_text label_cell) with
    | some meta_field =>
      parse_meta_fields_from_row rest (setMeta meta meta_field (pyStripS value_cell))
    | none => parse_meta_fields_from_row (value_cell :: rest) meta
  | _, meta => meta

/-- Python `text.split("\n")` on a character list. -/
def splitOnNewline : List Char → List (List Char)
  | [] => [[]]
  | c :: rest =>
    match splitOnNewline rest with
    | [] => [[c]]
    | g :: gs => if c = '\n' then [] :: g :: gs else (c :: g) :: gs

/-- Python `text.split("\n")`. -/
def splitLinesS (s : String) : List String :=
  (splitOnNewline s.data).map (fun l => (⟨l⟩ : String))

/-- The stripped non-blank lines of a cell text, in order: what the per-line
table pass appends to `paragraphs` when every such line is plain (used to
state properties of that pass). -/
def plainLines (s : String) : List String :=
  (splitLinesS s).filterMap (fun ln => if pyStripS ln = "" then none else some (pyStripS ln))

/-- The per-line body of the table pass in `parse_table_for_meta_and_others`:
skip blank lines, try inline metadata, then the heading pattern, otherwise
append to paragraphs. -/
def processCellLine (st : ParseState) (line : String) : ParseState :=
  let line_stripped := pyStripS line
  if line_stripped = "" then st
  else
    match try_extract_inline_meta line_stripped with
    | some (field, value) => { st with meta := setMeta st.meta field value }
    | none =>
      match headingMatch line_stripped with
      | some (tag, g2) => { st with headings := st.headings ++ [(tag, pyStripS g2)] }
      | none => { st with paragraphs := st.paragraphs ++ [line_stripped] }

/-- One row of `parse_table_for_meta_and_others`: the row-pair pass over the
stripped cell texts, then the per-line pass over every line of every cell. -/
def processRow (st : ParseState) (row : List String) : ParseState :=
  let cell_texts := row.map pyStripS
  let st1 := { st with meta := parse_meta_fields_from_row cell_texts st.meta }
  cell_texts.foldl (fun s ctext => (splitLinesS ctext).foldl processCellLine s) st1

/-- `parse_table_for_meta_and_others` from the source, for one table (a list
of rows, each a list of cell texts). -/
def parse_table_for_meta_and_others (table : List (List String)) (st : ParseState) : ParseState :=
  table.foldl processRow st

/-- The document abstraction: ordered body block texts and tables of cell
texts (what `docx.Document` exposes to `extract_content`). -/
structure Document where
  paragraphs : List String := []
  tables : List (List (List String)) := []

/-- The body half of `extract_content`: strip the block texts, drop blanks,
run the body pass on a fresh state. -/
def bodyState (doc : Document) : ParseState :=
  parse_paragraphs_for_meta ((doc.paragraphs.map pyStripS).filter (· ≠ "")) {}

/-- `extract_content` from the source: body pass first, then every table in
order. -/
def extract_content (doc : Document) : ParseState :=
  doc.tables.foldl (fun st table => parse_table_for_meta_and_others table st) (bodyState doc)

/-- A section of `group_content_by_headings`: a heading label (or none) plus
its paragraphs. -/
structure Section where
  heading : Option String := none
  paragraphs : List String := []
deriving DecidableEq

/-- The heading-to-string formatting `f"{h[0]}: {h[1]}"` used by
`group_content_by_headings` and `analyze_headings`. -/
def headingString (h : String × String) : String := h.1 ++ ": " ++ h.2

/-- `group_content_by_headings` from the source: one empty section per
heading, then (if any) a single trailing heading-less section holding every
paragraph.  (The function's dead interleaving bookkeeping is not modelled:
it never affects the returned list.) -/
def group_content_by_headings (headings : List (String × String)) (paragraphs : List String) :
    List Section :=
  let sections := headings.map (fun h => { heading := some (headingString h), paragraphs := [] : Section })
  if paragraphs ≠ [] then sections ++ [{ heading := none, paragraphs := paragraphs }]
  else sections

/-- The inner paragraph loop of `format_sections` (`enumerate` index made
explicit). -/
def formatParagraphLines (j : Nat) : List String → List String
  | [] => []
  | p :: rest =>
    ("  Paragraph " ++ toString (j + 1) ++ ": " ++ p) :: formatParagraphLines (j + 1) rest

/-- The section loop of `format_sections`.  Python's
`sec["heading"] if sec["heading"] else "No Heading"` treats both `None` and
the empty string as falsy. -/
def formatSectionLines (i : Nat) : List Section → List String
  | [] => []
  | sec :: rest =>
    let heading_label :=
      match sec.heading with
      | some h => if h = "" then "No Heading" else h
      | none => "No Heading"
    ("- Section " ++ toString (i + 1) ++ ", Heading: " ++ heading_label)
      :: (formatParagraphLines 0 sec.paragraphs ++ formatSectionLines (i + 1) rest)

/-- `format_sections` from `compare_sections_with_ai`. -/
def format_sections (version_name : String) (sections : List Section) : String :=
  String.intercalate "\n" (("**" ++ version_name ++ "**:") :: formatSectionLines 0 sections)

/-- The observable outcome of `compare_sections_with_ai`: either the
diagnostic string returned before any network activity, or the outbound
chat-completion request (model, system message, user prompt, temperature)
that would be sent. -/
inductive AIResult where
  | diagnostic (msg : String)
  | request (model systemMsg userPrompt : String) (temperature : ℚ)
deriving DecidableEq

/-- `compare_sections_with_ai` from the source.  `openai.api_key` is `None`
unless the UI stored a truthy string, and the guard is Python truthiness
(`if not openai.api_key`), i.e. missing or empty. -/
def compare_sections_with_ai (api_key : Option String) (sections_old sections_new : List Section) :
    AIResult :=
  if api_key.getD "" = "" then
    .diagnostic "OpenAI API key not provided; cannot generate AI summary."
  else
    let text_old := format_sections "Version 1" sections_old
    let text_new := format_sections "Version 2" sections_new
    let prompt :=
      "You are an expert content analyst. Two versions of content are grouped by heading. "
      ++ "Only mention sections (headings) that changed. If a heading is new or removed, mention it. "
      ++ "If the paragraphs under a heading changed, mention them. If a section is identical in both versions, omit it. "
      ++ "For changed sections, identify the heading (if any) and describe the changes in paragraphs.\n\n"
      ++ text_old ++ "\n\n" ++ text_new ++ "\n\n"
      ++ "Provide a concise summary of all changes in headings/paragraphs, only for those that differ. "
      ++ "Omit any sections that are identical."
    .request "gpt-4o" "You are an unbiased, detail-oriented content analyst." prompt (3 / 10)

/-- Longest common subsequence length, fuelled (callers pass the sum of the
lengths, which always suffices). -/
def lcsAux : Nat → List Char → List Char → Nat
  | 0, _, _ => 0
  | _ + 1, [], _ => 0
  | _ + 1, _ :: _, [] => 0
  | fuel + 1, a :: as, b :: bs =>
    if a = b then lcsAux fuel as bs + 1
    else max (lcsAux fuel (a :: as) bs) (lcsAux fuel as (b :: bs))

/-- Modelled from the spec: `difflib.SequenceMatcher(None, a, b).ratio()` is
external library code, described by the spec as "a normalized textual
similarity ratio (edit-distance-based, range [0,1], symmetric, 1.0 only for
exact equality)".  We model it as the normalised longest-common-subsequence
measure `2*lcs(a,b)/(len(a)+len(b))` (with the library's convention that two
empty strings have ratio 1.0), which has exactly the properties the spec
states. -/
def similarity (a b : String) : ℚ :=
  if a.data.length + b.data.length = 0 then 1
  else 2 * (lcsAux (a.data.length + b.data.length) a.data b.data : ℚ)
        / ((a.data.length : ℚ) + (b.data.length : ℚ))

/-- The four result buckets of `analyze_headings`.  The first component of an
`unchanged`/`modified` pair is `best_str_v1`, which Python initialises to
`None`, hence the `Option`. -/
structure HeadingDiff where
  unchanged : List (Option String × String) := []
  modified : List (Option String × String) := []
  added : List String := []
  removed : List String := []
deriving DecidableEq

/-- The loop state of `analyze_headings`: the `used_v1` set (a Python set of
`Optional[int]`) and the result buckets. -/
structure MatchState where
  used : Finset (Option Nat) := ∅
  res : HeadingDiff := {}

/-- The inner candidate scan of `analyze_headings`: walk `v1_strings` with
its index, skipping used indices, keeping the strictly best
`(best_ratio, best_index, best_str_v1)` triple. -/
def bestCandidate (used : Finset (Option Nat)) (heading_v2 : String) :
    Nat → List String → ℚ × Option Nat × Option String → ℚ × Option Nat × Option String
  | _, [], acc => acc
  | i, s :: rest, acc =>
    if some i ∈ used then bestCandidate used heading_v2 (i + 1) rest acc
    else
      let r := similarity s heading_v2
      if acc.1 < r then bestCandidate used heading_v2 (i + 1) rest (r, some i, some s)
      else bestCandidate used heading_v2 (i + 1) rest acc

/-- One iteration of the outer `for heading_v2 in v2_strings` loop of
`analyze_headings`: exact match goes to `unchanged`, a ratio at or above the
threshold to `modified`, otherwise the heading is `added`. -/
def matchStep (v1_strings : List String) (threshold : ℚ) (st : MatchState) (heading_v2 : String) :
    MatchState :=
  let best := bestCandidate st.used heading_v2 0 v1_strings (0, none, none)
  if best.1 = 1 then
    { used := insert best.2.1 st.used,
      res := { st.res with unchanged := st.res.unchanged ++ [(best.2.2, heading_v2)] } }
  else if threshold ≤ best.1 then
    { used := insert best.2.1 st.used,
      res := { st.res with modified := st.res.modified ++ [(best.2.2, heading_v2)] } }
  else
    { st with res := { st.res with added := st.res.added ++ [heading_v2] } }

/-- The final `for i, heading_v1 in enumerate(v1_strings)` loop: collect the
strings whose index was never marked used. -/
def collectRemoved (used : Finset (Option Nat)) : Nat → List String → List String
  | _, [] => []
  | i, s :: rest =>
    if some i ∈ used then collectRemoved used (i + 1) rest
    else s :: collectRemoved used (i + 1) rest

/-- The number of indices in `[k, k + n)` whose `some` form lies in `used`
(used to relate `collectRemoved` to the size of the used set). -/
def countUsed (used : Finset (Option Nat)) : Nat → Nat → Nat
  | _, 0 => 0
  | k, n + 1 => (if some k ∈ used then 1 else 0) + countUsed used (k + 1) n

/-- `analyze_headings` from the source (the in-repo call site passes
`threshold=0.7`, matching the Python default). -/
def analyze_headings (headings_v1 headings_v2 : List (String × String)) (threshold : ℚ) :
    HeadingDiff :=
  let v1_strings := headings_v1.map headingString
  let v2_strings := headings_v2.map headingString
  let st := v2_strings.foldl (matchStep v1_strings threshold) {}
  { st.res with removed := collectRemoved st.used 0 v1_strings }

theorem pyLowerChar_cases (c : Char) :
    pyLowerChar c = c ∨ (c ∈ ucChars ∧ pyLowerChar c ∈ lcChars) := by
  unfold pyLowerChar
  cases h : lowerTable.find? (fun p => p.1 = c) with
  | none => left; rfl
  | some p =>
    right
    have hmem : p ∈ lowerTable := List.mem_of_find?_eq_some h
    have hpc : p.1 = c := by simpa using List.find?_some h
    have hall : ∀ q ∈ lowerTable, q.1 ∈ ucChars ∧ q.2 ∈ lcChars := by decide
    exact ⟨hpc ▸ (hall p hmem).1, by simp [(hall p hmem).2]⟩

theorem pyLowerChar_idem (c : Char) : pyLowerChar (pyLowerChar c) = pyLowerChar c := by
  rcases pyLowerChar_cases c with h | ⟨_, hl⟩
  · rw [h, h]
  · have hfix : ∀ x ∈ lcChars, pyLowerChar x = x := by decide
    exact hfix _ hl

theorem isPySpace_pyLowerChar (c : Char) : isPySpace (pyLowerChar c) = isPySpace c := by
  rcases pyLowerChar_cases c with h | ⟨hu, hl⟩
  · rw [h]
  · have h1 : ∀ x ∈ lcChars, isPySpace x = false := by decide
    have h2 : ∀ x ∈ ucChars, isPySpace x = false := by decide
    rw [h1 _ hl, h2 _ hu]

theorem pyLowerChar_eq_self_of_not_uc (c : Char) (h : c ∉ ucChars) :
    pyLowerChar c = c := by
  rcases pyLowerChar_cases c with h1 | ⟨hu, _⟩
  · exact h1
  · exact absurd hu h

theorem pyLowerChar_eq_lparen (c : Char) (h : pyLowerChar c = '(') : c = '(' := by
  rcases pyLowerChar_cases c with h1 | ⟨_, hl⟩
  · rw [← h1]; exact h
  · rw [h] at hl; exact absurd hl (by decide)

theorem pyLowerChar_eq_rparen (c : Char) (h : pyLowerChar c = ')') : c = ')' := by
  rcases pyLowerChar_cases c with h1 | ⟨_, hl⟩
  · rw [← h1]; exact h
  · rw [h] at hl; exact absurd hl (by decide)

theorem lstripL_cons_of_not (c : Char) (l : List Char) (h : ¬ isPySpace c) :
    lstripL (c :: l) = c :: l := by
  simp [lstripL, List.dropWhile_cons, h]

theorem lstripL_cons_of_space (c : Char) (l : List Char) (h : isPySpace c) :
    lstripL (c :: l) = lstripL l := by
  simp [lstripL, List.dropWhile_cons, h]

theorem lstripL_idem (l : List Char) : lstripL (lstripL l) = lstripL l := by
  induction l with
  | nil => rfl
  | cons c rest ih =>
    by_cases h : isPySpace c
    · rw [lstripL_cons_of_space c rest h]; exact ih
    · rw [lstripL_cons_of_not c rest h, lstripL_cons_of_not c rest h]

theorem rstripL_cons (c : Char) (l : List Char) :
    rstripL (c :: l)
      = if rstripL l = [] then (if isPySpace c then [] else [c]) else c :: rstripL l := by
  simp only [rstripL]
  split
  · rename_i heq; rw [heq]; simp
  · rename_i heq
    rw [if_neg heq]

theorem rstripL_cons_of_not (c : Char) (l : List Char) (h : ¬ isPySpace c) :
    rstripL (c :: l) = c :: rstripL l := by
  rw [rstripL_cons]
  by_cases h2 : rstripL l = [] <;> simp [h2, h]

theorem rstripL_idem (l : List Char) : rstripL (rstripL l) = rstripL l := by
  induction l with
  | nil => rfl
  | cons c rest ih =>
    have hA := rstripL_cons c rest
    by_cases h : rstripL rest = []
    · rw [if_pos h] at hA
      by_cases hc : isPySpace c
      · rw [if_pos hc] at hA; rw [hA]; rfl
      · rw [if_neg hc] at hA; rw [hA, rstripL_cons]
        simp [hc, rstripL]
    · rw [if_neg h] at hA
      rw [hA, rstripL_cons, ih, if_neg h]

theorem lstripL_rstripL_comm (l : List Char) :
    lstripL (rstripL l) = rstripL (lstripL l) := by
  induction l with
  | nil => rfl
  | cons c rest ih =>
    have hA := rstripL_cons c rest
    by_cases hc : isPySpace c
    · rw [lstripL_cons_of_space c rest hc]
      by_cases h : rstripL rest = []
      · rw [if_pos h, if_pos hc] at hA
        rw [hA]
        rw [h] at ih
        exact ih
      · rw [if_neg h] at hA
        rw [hA, lstripL_cons_of_space c _ hc, ih]
    · rw [lstripL_cons_of_not c rest hc]
      by_cases h : rstripL rest = []
      · rw [if_pos h, if_neg hc] at hA
        rw [hA, lstripL_cons_of_not c [] hc]
      · rw [if_neg h] at hA
        rw [hA, lstripL_cons_of_not c _ hc]

theorem pyStripL_idem (l : List Char) : pyStripL (pyStripL l) = pyStripL l := by
  unfold pyStripL
  rw [lstripL_rstripL_comm (lstripL l), lstripL_idem, rstripL_idem]

theorem mem_rstripL (a : Char) (l : List Char) (h : a ∈ rstripL l) : a ∈ l := by
  induction l with
  | nil => exact absurd h (by simp [rstripL])
  | cons c rest ih =>
    cases h2 : rstripL rest with
    | nil =>
      unfold rstripL at h
      rw [h2] at h
      by_cases hc : isPySpace c
      · simp [hc] at h
      · simp [hc] at h
        simp [h]
    | cons x xs =>
      unfold rstripL at h
      rw [h2] at h
      rcases List.mem_cons.mp h with h3 | h3
      · simp [h3]
      · exact List.mem_cons_of_mem c (ih (h2 ▸ h3))

theorem mem_lstripL (a : Char) (l : List Char) (h : a ∈ lstripL l) : a ∈ l :=
  (List.dropWhile_sublist isPySpace).mem h

theorem mem_pyStripL (a : Char) (l : List Char) (h : a ∈ pyStripL l) : a ∈ l :=
  mem_lstripL a l (mem_rstripL a (lstripL l) h)

theorem lstripL_map_pyLowerChar (l : List Char) :
    lstripL (l.map pyLowerChar) = (lstripL l).map pyLowerChar := by
  induction l with
  | nil => rfl
  | cons c rest ih =>
    by_cases hc : isPySpace c
    · have hc2 : isPySpace (pyLowerChar c) := by rw [isPySpace_pyLowerChar]; exact hc
      simp only [List.map_cons]
      rw [lstripL_cons_of_space _ _ hc2, lstripL_cons_of_space _ _ hc, ih]
    · have hc2 : ¬ isPySpace (pyLowerChar c) := by rw [isPySpace_pyLowerChar]; exact hc
      simp only [List.map_cons]
      rw [lstripL_cons_of_not _ _ hc2, lstripL_cons_of_not _ _ hc, List.map_cons]

theorem rstripL_map_pyLowerChar (l : List Char) :
    rstripL (l.map pyLowerChar) = (rstripL l).map pyLowerChar := by
  induction l with
  | nil => rfl
  | cons c rest ih =>
    simp only [List.map_cons]
    cases h : rstripL rest with
    | nil =>
      have hmap : rstripL (rest.map pyLowerChar) = [] := by rw [ih, h]; rfl
      unfold rstripL
      rw [h, hmap, isPySpace_pyLowerChar]
      by_cases hc : isPySpace c <;> simp [hc]
    | cons x xs =>
      have hmap : rstripL (rest.map pyLowerChar) = (x :: xs).map pyLowerChar := by rw [ih, h]
      unfold rstripL
      rw [h, hmap]
      simp

theorem pyStripL_map_pyLowerChar (l : List Char) :
    pyStripL (l.map pyLowerChar) = (pyStripL l).map pyLowerChar := by
  unfold pyStripL
  rw [lstripL_map_pyLowerChar, rstripL_map_pyLowerChar]

theorem leadsWith_cons_false (c : Char) (l : List Char) (h : c ≠ '(') :
    leadsWith charLimitPat (c :: l) = false := by
  have hp : charLimitPat = '(' :: "Character limit".data := rfl
  rw [hp]
  simp only [leadsWith, Bool.and_eq_false_iff]
  left
  simpa using fun hcc => h hcc.symm

theorem subAux_of_no_lparen (fuel : Nat) (l : List Char) (h : '(' ∉ l) :
    subAux fuel l = l := by
  induction fuel generalizing l with
  | zero => rfl
  | succ f ih =>
    cases l with
    | nil => rfl
    | cons c rest =>
      have hc : c ≠ '(' := fun hcc => h (hcc ▸ List.mem_cons_self c rest)
      have hrest : '(' ∉ rest := fun hm => h (List.mem_cons_of_mem c hm)
      rw [show subAux (f + 1) (c :: rest)
            = c :: subAux f rest by simp [subAux, leadsWith_cons_false c rest hc]]
      rw [ih rest hrest]

theorem subAux_cons_ne (fuel : Nat) (c : Char) (l : List Char) (h : c ≠ '(') :
    subAux (fuel + 1) (c :: l) = c :: subAux fuel l := by
  simp [subAux, leadsWith_cons_false c l h]

theorem findStop_length (l : List Char) (r : List Char) (h : findStop l = some r) :
    r.length < l.length := by
  induction l generalizing r with
  | nil => exact absurd h (by simp [findStop])
  | cons c rest ih =>
    unfold findStop at h
    by_cases h1 : c = ')'
    · rw [if_pos h1] at h
      injection h with h2
      simp [← h2]
    · rw [if_neg h1] at h
      by_cases h2 : c = '\n'
      · rw [if_pos h2] at h; exact absurd h (by simp)
      · rw [if_neg h2] at h
        exact Nat.lt_trans (ih r h) (by simp)

theorem subAux_fuel_irrelevant (f1 : Nat) :
    ∀ (f2 : Nat) (l : List Char), l.length ≤ f1 → l.length ≤ f2 → subAux f1 l = subAux f2 l := by
  induction f1 with
  | zero =>
    intro f2 l h1 _
    have : l = [] := List.eq_nil_of_length_eq_zero (Nat.le_zero.mp h1)
    subst this
    cases f2 <;> rfl
  | succ g1 ih =>
    intro f2 l h1 h2
    cases l with
    | nil => cases f2 <;> rfl
    | cons c rest =>
      cases f2 with
      | zero => exact absurd h2 (by simp)
      | succ g2 =>
        by_cases hm : leadsWith charLimitPat (c :: rest) = true
        · rw [show subAux (g1 + 1) (c :: rest)
              = match findStop ((c :: rest).drop charLimitPat.length) with
                | some r2 => subAux g1 r2
                | none => c :: subAux g1 rest by simp [subAux, hm],
            show subAux (g2 + 1) (c :: rest)
              = match findStop ((c :: rest).drop charLimitPat.length) with
                | some r2 => subAux g2 r2
                | none => c :: subAux g2 rest by simp [subAux, hm]]
          cases hf : findStop ((c :: rest).drop charLimitPat.length) with
          | some r2 =>
            have hlen : r2.length < ((c :: rest).drop charLimitPat.length).length :=
              findStop_length _ _ hf
            have hdrop : ((c :: rest).drop charLimitPat.length).length ≤ rest.length + 1 := by
              rw [List.length_drop]
              simp
            have hr2 : r2.length ≤ rest.length := by omega
            have hb1 : r2.length ≤ g1 := by simp at h1; omega
            have hb2 : r2.length ≤ g2 := by simp at h2; omega
            exact ih g2 r2 hb1 hb2
          | none =>
            have hb1 : rest.length ≤ g1 := by simp at h1; omega
            have hb2 : rest.length ≤ g2 := by simp at h2; omega
            rw [ih g2 rest hb1 hb2]
        · rw [show subAux (g1 + 1) (c :: rest) = c :: subAux g1 rest by simp [subAux, hm],
             show subAux (g2 + 1) (c :: rest) = c :: subAux g2 rest by simp [subAux, hm]]
          have hb1 : rest.length ≤ g1 := by simp at h1; omega
          have hb2 : rest.length ≤ g2 := by simp at h2; omega
          rw [ih g2 rest hb1 hb2]

theorem subCharLimitL_cons_ne (c : Char) (l : List Char) (h : c ≠ '(') :
    subCharLimitL (c :: l) = c :: subCharLimitL l := by
  unfold subCharLimitL
  rw [show (c :: l).length = l.length + 1 by simp, subAux_cons_ne l.length c l h]

theorem subCharLimitL_of_no_lparen (l : List Char) (h : '(' ∉ l) :
    subCharLimitL l = l :=
  subAux_of_no_lparen l.length l h

theorem clean_label_text_no_paren (x : String) :
    '(' ∉ (clean_label_text x).data ∧ ')' ∉ (clean_label_text x).data := by
  unfold clean_label_text
  constructor
  · intro hmem
    simp only [List.mem_map] at hmem
    obtain ⟨c, hc, hlc⟩ := hmem
    have hcp : c = '(' := pyLowerChar_eq_lparen c hlc
    subst hcp
    have h2 := mem_pyStripL _ _ hc
    have h3 := (List.mem_filter.mp h2).1
    have h4 := (List.mem_filter.mp h3).2
    simp at h4
  · intro hmem
    simp only [List.mem_map] at hmem
    obtain ⟨c, hc, hlc⟩ := hmem
    have hcp : c = ')' := pyLowerChar_eq_rparen c hlc
    subst hcp
    have h2 := mem_pyStripL _ _ hc
    have h3 := (List.mem_filter.mp h2).2
    simp at h3

/-- C7: the label normalizer is idempotent — applying `clean_label_text`
twice gives the same result as applying it once, for every input string. -/
theorem C7_clean_label_text_idempotent (x : String) :
    clean_label_text (clean_label_text x) = clean_label_text x := by
  obtain ⟨hnl, hnr⟩ := clean_label_text_no_paren x
  set y := clean_label_text x with hy
  have hsub : subCharLimitL y.data = y.data := subCharLimitL_of_no_lparen y.data hnl
  have hf1 : (y.data.filter (· ≠ '(')) = y.data := by
    rw [List.filter_eq_self]
    intro a ha
    simp only [decide_eq_true_iff]
    exact fun haa => hnl (haa ▸ ha)
  have hf2 : (y.data.filter (· ≠ ')')) = y.data := by
    rw [List.filter_eq_self]
    intro a ha
    simp only [decide_eq_true_iff]
    exact fun haa => hnr (haa ▸ ha)
  have hstrip : pyStripL y.data = y.data := by
    rw [hy]
    show pyStripL (clean_label_text x).data = (clean_label_text x).data
    unfold clean_label_text
    simp only
    rw [← pyStripL_map_pyLowerChar, pyStripL_idem, pyStripL_map_pyLowerChar]
  have hlower : y.data.map pyLowerChar = y.data := by
    rw [hy]
    show (clean_label_text x).data.map pyLowerChar = (clean_label_text x).data
    unfold clean_label_text
    simp only
    rw [List.map_map]
    exact List.map_congr_left (fun c _ => pyLowerChar_idem c)
  show clean_label_text y = y
  unfold clean_label_text
  rw [hsub, hf1, hf2, hstrip, hlower]

/-- C10: the row-pair metadata pass never treats the last cell of a row as a
label: a single-cell row (and an empty row) leaves the metadata map
untouched, whatever the cell's text — in particular even when its normalized
text is a trigger key, since the `while i < len(cells) - 1` bound stops the
cursor before the final cell. -/
theorem C10_single_cell_row_sets_nothing (c : String) (m : Meta) :
    parse_meta_fields_from_row [c] m = m ∧ parse_meta_fields_from_row [] m = m :=
  ⟨rfl, rfl⟩

/-- C8: with no API credential configured (Python truthiness: the key is
`None` or empty), `compare_sections_with_ai` returns the fixed diagnostic
string for every input section pair, and never produces an outbound
request. -/
theorem C8_no_key_diagnostic (api_key : Option String)
    (sections_old sections_new : List Section) (h : api_key.getD "" = "") :
    compare_sections_with_ai api_key sections_old sections_new
      = AIResult.diagnostic "OpenAI API key not provided; cannot generate AI summary."
    ∧ ∀ model sys prompt temp,
        compare_sections_with_ai api_key sections_old sections_new
          ≠ AIResult.request model sys prompt temp := by
  have hd : compare_sections_with_ai api_key sections_old sections_new
      = AIResult.diagnostic "OpenAI API key not provided; cannot generate AI summary." := by
    unfold compare_sections_with_ai
    rw [if_pos h]
  exact ⟨hd, fun model sys prompt temp hreq => by rw [hd] at hreq; exact absurd hreq (by simp)⟩

theorem C8_no_key_diagnostic_witness :
    ((none : Option String).getD "" = "")
    ∧ compare_sections_with_ai none [] []
        = AIResult.diagnostic "OpenAI API key not provided; cannot generate AI summary." :=
  ⟨rfl, (C8_no_key_diagnostic none [] [] rfl).1⟩

/-- C9: `group_content_by_headings` returns one section per heading, in
order, each with an empty paragraph list, followed by exactly one trailing
heading-less section holding the entire paragraph list iff `paragraphs` is
non-empty; consequently no paragraph is ever attached to a heading's
section. -/
theorem C9_group_content_shape (headings : List (String × String)) (paragraphs : List String) :
    (group_content_by_headings headings paragraphs).take headings.length
        = headings.map (fun h => { heading := some (headingString h), paragraphs := [] : Section })
    ∧ (group_content_by_headings headings paragraphs).drop headings.length
        = (if paragraphs = [] then []
           else [{ heading := none, paragraphs := paragraphs : Section }])
    ∧ (group_content_by_headings headings paragraphs).length
        = headings.length + (if paragraphs = [] then 0 else 1)
    ∧ ∀ s ∈ group_content_by_headings headings paragraphs,
        s.heading ≠ none → s.paragraphs = [] := by
  by_cases hp : paragraphs = []
  · subst hp
    have hg : group_content_by_headings headings []
        = headings.map (fun h => { heading := some (headingString h), paragraphs := [] : Section }) := by
      unfold group_content_by_headings
      simp
    rw [hg, if_pos rfl, if_pos rfl]
    refine ⟨?_, ?_, ?_, ?_⟩
    · conv_lhs => rw [show headings.length
        = (headings.map (fun h => { heading := some (headingString h), paragraphs := [] : Section })).length
          by simp]
      exact List.take_length _
    · conv_lhs => rw [show headings.length
        = (headings.map (fun h => { heading := some (headingString h), paragraphs := [] : Section })).length
          by simp]
      exact List.drop_length _
    · simp
    · intro s hs _
      obtain ⟨h, _, hh⟩ := List.mem_map.mp hs
      rw [← hh]
  · have hg : group_content_by_headings headings paragraphs
        = headings.map (fun h => { heading := some (headingString h), paragraphs := [] : Section })
          ++ [{ heading := none, paragraphs := paragraphs : Section }] := by
      unfold group_content_by_headings
      simp [hp]
    rw [hg, if_neg hp, if_neg hp]
    refine ⟨?_, ?_, ?_, ?_⟩
    · conv_lhs => rw [show headings.length
        = (headings.map (fun h => { heading := some (headingString h), paragraphs := [] : Section })).length
          by simp]
      exact List.take_left _ _
    · conv_lhs => rw [show headings.length
        = (headings.map (fun h => { heading := some (headingString h), paragraphs := [] : Section })).length
          by simp]
      exact List.drop_left _ _
    · simp
    · intro s hs hne
      rcases List.mem_append.mp hs with h1 | h1
      · obtain ⟨h, _, hh⟩ := List.mem_map.mp h1
        rw [← hh]
      · simp only [List.mem_singleton] at h1
        rw [h1] at hne
        exact absurd rfl hne

/-- C3 counterexample: the claim says the six-key Field Trigger Table is
shared by the body pass's standalone-label step, so that a body line
`"Title Tag"` followed by a value line stores the value under `Meta Title`.
In the code the standalone step uses the four-key `possible_labels` dict, which
lacks `"title tag"`: both lines fall through to paragraphs and no metadata
field is set. -/
theorem C3_counterexample :
    clean_label_text "Title Tag" = "title tag"
    ∧ triggers "title tag" = some "Meta Title"
    ∧ (parse_paragraphs_for_meta ["Title Tag", "My Title"] {}).meta.metaTitle = ""
    ∧ (parse_paragraphs_for_meta ["Title Tag", "My Title"] {}).meta = {}
    ∧ (parse_paragraphs_for_meta ["Title Tag", "My Title"] {}).paragraphs
        = ["Title Tag", "My Title"] := by
  decide

/-- C3 (amended): the body pass's standalone-label step recognizes only the
four-key `possible_labels` table `{"meta title", "meta description", "h1",
"url"}`, not the full six-key trigger table: a line whose normalized form
equals one of those four keys, followed by a line whose normalized form is
not itself such a key, stores the following (stripped) line under the mapped
field and consumes both lines; `"title tag"` (and `"existing url"`) are
absent from that table — they are only recognized by the inline and
table-row passes, which share the six-key `triggers` table. -/
theorem C3_standalone_label_amended (l next : String) (rest : List String)
    (st : ParseState) (label_key : String)
    (h0 : pyStripS l ≠ "")
    (h1 : possible_labels (clean_label_text (pyStripS l)) = some label_key)
    (h2 : possible_labels (clean_label_text (pyStripS next)) = none) :
    parse_paragraphs_for_meta (l :: next :: rest) st
      = parse_paragraphs_for_meta rest
          { st with meta := setMeta st.meta label_key (pyStripS next) }
    ∧ possible_labels "title tag" = none
    ∧ possible_labels "existing url" = none
    ∧ triggers "title tag" = some "Meta Title"
    ∧ triggers "existing url" = some "URL" := by
  refine ⟨?_, by decide, by decide, by decide, by decide⟩
  conv_lhs => rw [parse_paragraphs_for_meta]
  rw [if_neg h0, h1]
  simp only [h2, Option.isNone_none, if_true]

theorem C3_standalone_label_amended_witness :
    (pyStripS "Meta Title" ≠ "")
    ∧ possible_labels (clean_label_text (pyStripS "Meta Title")) = some "Meta Title"
    ∧ possible_labels (clean_label_text (pyStripS "Sliding Doors Guide")) = none
    ∧ parse_paragraphs_for_meta ["Meta Title", "Sliding Doors Guide"] {}
        = { meta := { metaTitle := "Sliding Doors Guide" } } := by
  refine ⟨by decide, by decide, by decide, ?_⟩
  have h := (C3_standalone_label_amended "Meta Title" "Sliding Doors Guide" [] {} "Meta Title"
    (by decide) (by decide) (by decide)).1
  rw [h]
  decide

theorem string_ne_of_head (a b : String) (x y : Char) (hx : a.data.head? = some x)
    (hy : b.data.head? = some y) (hxy : x ≠ y) : a ≠ b := by
  intro he
  rw [he, hy] at hx
  exact hxy (Option.some.inj hx).symm

theorem string_ne_of_third (a b : String) (x : Char) (hx : (a.data.drop 2).head? = some x)
    (hy : (b.data.drop 2).head? = none) : a ≠ b := by
  intro he
  rw [he, hy] at hx
  exact Option.noConfusion hx

theorem takeWhile_ne_newline_of_not_mem (l : List Char) (h : '\n' ∉ l) :
    l.takeWhile (· ≠ '\n') = l :=
  List.takeWhile_eq_self_iff.mpr (fun _x hx => decide_eq_true (fun he => h (he ▸ hx)))

/-- The computations `parse_paragraphs_for_meta` performs on a stripped line
of the shape `H<digit>: ...` (digit `2`–`6`): the standalone-label lookup
misses, the inline-metadata extraction misses, and the heading pattern
matches. -/
theorem bodyLine_heading_classification (d : Char) (R : List Char)
    (hsp : isPySpace d = false) (hlp : d ≠ '(') (hcol : d ≠ ':')
    (hr1 : '1' ≤ d) (hr2 : d ≤ '6') (hlow : pyLowerChar d = d) (hone : d ≠ '1') :
    possible_labels (clean_label_text ⟨'H' :: d :: ':' :: R⟩) = none
    ∧ try_extract_inline_meta ⟨'H' :: d :: ':' :: R⟩ = none
    ∧ headingMatch ⟨'H' :: d :: ':' :: R⟩
        = some (⟨['H', d]⟩, ⟨(R.dropWhile isPySpace).takeWhile (· ≠ '\n')⟩) := by
  have hsp' : ¬ isPySpace d := by simp [hsp]
  have hrp : d ≠ ')' := fun he => absurd (he ▸ hr1) (by decide)
  have hdata : (⟨'H' :: d :: ':' :: R⟩ : String).data = 'H' :: d :: ':' :: R := rfl
  have hsub : subCharLimitL ('H' :: d :: ':' :: R) = 'H' :: d :: ':' :: subCharLimitL R := by
    rw [show ('H' :: d :: ':' :: R) = 'H' :: (d :: ':' :: R) from rfl,
        subCharLimitL_cons_ne _ _ (by decide), subCharLimitL_cons_ne _ _ hlp,
        subCharLimitL_cons_ne _ _ (by decide)]
  have htrig : triggers ⟨['h', d]⟩ = none := by
    unfold triggers
    rw [if_neg (string_ne_of_head ⟨['h', d]⟩ "meta title" 'h' 'm' rfl rfl (by decide)),
        if_neg (string_ne_of_head ⟨['h', d]⟩ "title tag" 'h' 't' rfl rfl (by decide)),
        if_neg (string_ne_of_head ⟨['h', d]⟩ "meta description" 'h' 'm' rfl rfl (by decide)),
        if_neg (string_ne_of_head ⟨['h', d]⟩ "existing url" 'h' 'e' rfl rfl (by decide)),
        if_neg (string_ne_of_head ⟨['h', d]⟩ "url" 'h' 'u' rfl rfl (by decide)),
        if_neg (fun he => hone (by
          have h2 : (['h', d] : List Char) = "h1".data := congrArg String.data he
          rw [show "h1".data = ['h', '1'] from rfl] at h2
          exact ((List.cons.injEq _ _ _ _).mp ((List.cons.injEq _ _ _ _).mp h2).2).1))]
  refine ⟨?_, ?_, ?_⟩
  · -- the standalone-label lookup: the cleaned line still starts `h<digit>:`,
    -- which is none of the four `possible_labels` keys
    have hf1 : List.filter (· ≠ '(') ('H' :: d :: ':' :: subCharLimitL R)
        = 'H' :: d :: ':' :: List.filter (· ≠ '(') (subCharLimitL R) := by
      rw [List.filter_cons, if_pos (by decide), List.filter_cons,
          if_pos (decide_eq_true hlp), List.filter_cons, if_pos (by decide)]
    have hf2 : List.filter (· ≠ ')')
          ('H' :: d :: ':' :: List.filter (· ≠ '(') (subCharLimitL R))
        = 'H' :: d :: ':' :: List.filter (· ≠ ')') (List.filter (· ≠ '(') (subCharLimitL R)) := by
      rw [List.filter_cons, if_pos (by decide), List.filter_cons,
          if_pos (decide_eq_true hrp), List.filter_cons, if_pos (by decide)]
    have hclean : clean_label_text ⟨'H' :: d :: ':' :: R⟩
        = ⟨'h' :: d :: ':' ::
            (rstripL (List.filter (· ≠ ')') (List.filter (· ≠ '(') (subCharLimitL R)))).map
              pyLowerChar⟩ := by
      unfold clean_label_text
      rw [hdata, hsub, hf1, hf2]
      unfold pyStripL
      rw [lstripL_cons_of_not _ _ (by decide), rstripL_cons_of_not _ _ (by decide),
          rstripL_cons_of_not _ _ hsp', rstripL_cons_of_not _ _ (by decide)]
      rw [List.map_cons, List.map_cons, List.map_cons, hlow,
          show pyLowerChar 'H' = 'h' from by decide, show pyLowerChar ':' = ':' from by decide]
    obtain ⟨T, hT⟩ : ∃ T, clean_label_text ⟨'H' :: d :: ':' :: R⟩ = ⟨'h' :: d :: ':' :: T⟩ :=
      ⟨_, hclean⟩
    rw [hT]
    unfold possible_labels
    rw [if_neg (string_ne_of_head ⟨'h' :: d :: ':' :: T⟩ "meta title" 'h' 'm' rfl rfl (by decide)),
        if_neg (string_ne_of_head ⟨'h' :: d :: ':' :: T⟩ "meta description" 'h' 'm' rfl rfl
          (by decide)),
        if_neg (string_ne_of_third ⟨'h' :: d :: ':' :: T⟩ "h1" ':' rfl rfl),
        if_neg (string_ne_of_head ⟨'h' :: d :: ':' :: T⟩ "url" 'h' 'u' rfl rfl (by decide))]
  · -- the inline pass: the label before the colon is `h<digit>`, not a trigger
    unfold try_extract_inline_meta
    rw [hdata, hsub]
    rw [if_pos (by simp)]
    rw [show List.takeWhile (· ≠ ':') ('H' :: d :: ':' :: subCharLimitL R) = ['H', d] by
      rw [List.takeWhile_cons, if_pos (by decide), List.takeWhile_cons,
          if_pos (decide_eq_true hcol), List.takeWhile_cons, if_neg (by decide)]]
    rw [show pyStripL ['H', d] = ['H', d] by
      unfold pyStripL
      rw [lstripL_cons_of_not _ _ (by decide), rstripL_cons_of_not _ _ (by decide),
          show rstripL [d] = [d] by simp [rstripL, hsp]]]
    rw [show (['H', d].map pyLowerChar) = ['h', d] by
      simp [hlow, show pyLowerChar 'H' = 'h' from by decide]]
    rw [htrig]
  · -- the heading regex matches
    show (if ('H' = 'H' || 'H' = 'h') && ('1' ≤ d && d ≤ '6') && (':' = ':') then
        some ((⟨['H', d]⟩ : String), (⟨(R.dropWhile isPySpace).takeWhile (· ≠ '\n')⟩ : String))
      else none)
      = some (⟨['H', d]⟩, ⟨(R.dropWhile isPySpace).takeWhile (· ≠ '\n')⟩)
    rw [if_pos (by simp [decide_eq_true hr1, decide_eq_true hr2])]

theorem processCellLine_blank (s : ParseState) (ln : String) (h : pyStripS ln = "") :
    processCellLine s ln = s := by
  simp [processCellLine, h]

theorem processCellLine_plain (s : ParseState) (ln : String) (h0 : pyStripS ln ≠ "")
    (h1 : try_extract_inline_meta (pyStripS ln) = none)
    (h2 : headingMatch (pyStripS ln) = none) :
    processCellLine s ln = { s with paragraphs := s.paragraphs ++ [pyStripS ln] } := by
  simp only [processCellLine, h1, h2]
  rw [if_neg h0]

theorem foldl_processCellLine_plain (lines : List String) (s : ParseState)
    (h : ∀ ln ∈ lines, pyStripS ln = ""
        ∨ (try_extract_inline_meta (pyStripS ln) = none ∧ headingMatch (pyStripS ln) = none)) :
    lines.foldl processCellLine s
      = { s with paragraphs := s.paragraphs
            ++ lines.filterMap (fun ln => if pyStripS ln = "" then none else some (pyStripS ln)) } := by
  induction lines generalizing s with
  | nil => simp
  | cons ln rest ih =>
    rw [List.foldl_cons, List.filterMap_cons]
    by_cases hb : pyStripS ln = ""
    · rw [processCellLine_blank s ln hb, if_pos hb]
      exact ih s (fun x hx => h x (List.mem_cons_of_mem ln hx))
    · rcases h ln (List.mem_cons_self ln rest) with hb2 | ⟨h1, h2⟩
      · exact absurd hb2 hb
      · rw [processCellLine_plain s ln hb h1 h2, if_neg hb,
            ih _ (fun x hx => h x (List.mem_cons_of_mem ln hx))]
        simp

theorem lcsAux_le_left : ∀ (fuel : Nat) (a b : List Char), lcsAux fuel a b ≤ a.length := by
  intro fuel
  induction fuel with
  | zero => intro a b; simp [lcsAux]
  | succ f ih =>
    intro a b
    cases a with
    | nil => simp [lcsAux]
    | cons x as =>
      cases b with
      | nil => simp [lcsAux]
      | cons y bs =>
        by_cases hxy : x = y
        · rw [show lcsAux (f + 1) (x :: as) (y :: bs) = lcsAux f as bs + 1 by
            simp [lcsAux, hxy]]
          simpa using ih as bs
        · rw [show lcsAux (f + 1) (x :: as) (y :: bs)
              = max (lcsAux f (x :: as) bs) (lcsAux f as (y :: bs)) by simp [lcsAux, hxy]]
          refine max_le (ih (x :: as) bs) (le_trans (ih as (y :: bs)) ?_)
          simp

theorem lcsAux_le_right : ∀ (fuel : Nat) (a b : List Char), lcsAux fuel a b ≤ b.length := by
  intro fuel
  induction fuel with
  | zero => intro a b; simp [lcsAux]
  | succ f ih =>
    intro a b
    cases a with
    | nil => simp [lcsAux]
    | cons x as =>
      cases b with
      | nil => simp [lcsAux]
      | cons y bs =>
        by_cases hxy : x = y
        · rw [show lcsAux (f + 1) (x :: as) (y :: bs) = lcsAux f as bs + 1 by
            simp [lcsAux, hxy]]
          simpa using ih as bs
        · rw [show lcsAux (f + 1) (x :: as) (y :: bs)
              = max (lcsAux f (x :: as) bs) (lcsAux f as (y :: bs)) by simp [lcsAux, hxy]]
          refine max_le (le_trans (ih (x :: as) bs) ?_) (ih as (y :: bs))
          simp

theorem lcsAux_self : ∀ (fuel : Nat) (l : List Char), l.length ≤ fuel → lcsAux fuel l l = l.length := by
  intro fuel
  induction fuel with
  | zero =>
    intro l hl
    rw [List.eq_nil_of_length_eq_zero (Nat.le_zero.mp hl)]
    rfl
  | succ f ih =>
    intro l hl
    cases l with
    | nil => rfl
    | cons x xs =>
      rw [show lcsAux (f + 1) (x :: xs) (x :: xs) = lcsAux f xs xs + 1 by simp [lcsAux]]
      rw [ih xs (by simpa using Nat.lt_succ_iff.mp (Nat.lt_of_lt_of_le (Nat.lt_succ_self _) hl))]
      rfl

theorem lcsAux_full_eq : ∀ (fuel : Nat) (a b : List Char),
    lcsAux fuel a b = a.length → lcsAux fuel a b = b.length → a = b := by
  intro fuel
  induction fuel with
  | zero =>
    intro a b h1 h2
    simp only [lcsAux] at h1 h2
    rw [List.eq_nil_of_length_eq_zero h1.symm, List.eq_nil_of_length_eq_zero h2.symm]
  | succ f ih =>
    intro a b h1 h2
    cases a with
    | nil =>
      simp only [lcsAux] at h2
      rw [List.eq_nil_of_length_eq_zero h2.symm]
    | cons x as =>
      cases b with
      | nil => simp [lcsAux] at h1
      | cons y bs =>
        by_cases hxy : x = y
        · subst hxy
          rw [show lcsAux (f + 1) (x :: as) (x :: bs) = lcsAux f as bs + 1 by
            simp [lcsAux]] at h1 h2
          simp only [List.length_cons, Nat.add_right_cancel_iff] at h1 h2
          rw [ih as bs h1 h2]
        · exfalso
          rw [show lcsAux (f + 1) (x :: as) (y :: bs)
              = max (lcsAux f (x :: as) bs) (lcsAux f as (y :: bs)) by simp [lcsAux, hxy]]
            at h1 h2
          have hA : lcsAux f (x :: as) bs ≤ bs.length := lcsAux_le_right f _ _
          have hB : lcsAux f as (y :: bs) ≤ as.length := lcsAux_le_left f _ _
          simp only [List.length_cons] at h1 h2
          rcases max_choice (lcsAux f (x :: as) bs) (lcsAux f as (y :: bs)) with hc | hc <;>
            rw [hc] at h1 h2 <;> omega

theorem similarity_le_one (a b : String) : similarity a b ≤ 1 := by
  unfold similarity
  by_cases h : a.data.length + b.data.length = 0
  · rw [if_pos h]
  · have hpos : (0 : ℚ) < (a.data.length : ℚ) + (b.data.length : ℚ) := by
      have := Nat.pos_of_ne_zero h
      exact_mod_cast this
    rw [if_neg h, div_le_one hpos]
    have h1 : lcsAux (a.data.length + b.data.length) a.data b.data ≤ a.data.length :=
      lcsAux_le_left _ _ _
    have h2 : lcsAux (a.data.length + b.data.length) a.data b.data ≤ b.data.length :=
      lcsAux_le_right _ _ _
    rw [two_mul]
    exact add_le_add (by exact_mod_cast h1) (by exact_mod_cast h2)

theorem similarity_self (a : String) : similarity a a = 1 := by
  unfold similarity
  by_cases h : a.data.length + a.data.length = 0
  · rw [if_pos h]
  · have hpos : (0 : ℚ) < (a.data.length : ℚ) + (a.data.length : ℚ) := by
      have := Nat.pos_of_ne_zero h
      exact_mod_cast this
    rw [if_neg h, lcsAux_self _ _ (by omega), div_eq_one_iff_eq (ne_of_gt hpos)]
    ring

theorem similarity_eq_one (a b : String) (h : similarity a b = 1) : a = b := by
  unfold similarity at h
  by_cases h0 : a.data.length + b.data.length = 0
  · have ha : a.data = [] := List.eq_nil_of_length_eq_zero (by omega)
    have hb : b.data = [] := List.eq_nil_of_length_eq_zero (by omega)
    cases a; cases b
    simp_all
  · have hpos : (0 : ℚ) < (a.data.length : ℚ) + (b.data.length : ℚ) := by
      have := Nat.pos_of_ne_zero h0
      exact_mod_cast this
    rw [if_neg h0, div_eq_one_iff_eq (ne_of_gt hpos)] at h
    have hnat : 2 * lcsAux (a.data.length + b.data.length) a.data b.data
        = a.data.length + b.data.length := by exact_mod_cast h
    have h1 : lcsAux (a.data.length + b.data.length) a.data b.data ≤ a.data.length :=
      lcsAux_le_left _ _ _
    have h2 : lcsAux (a.data.length + b.data.length) a.data b.data ≤ b.data.length :=
      lcsAux_le_right _ _ _
    have ha : lcsAux (a.data.length + b.data.length) a.data b.data = a.data.length := by omega
    have hb : lcsAux (a.data.length + b.data.length) a.data b.data = b.data.length := by omega
    have := lcsAux_full_eq _ _ _ ha hb
    cases a; cases b
    simp_all

theorem bestCandidate_mono (used : Finset (Option Nat)) (h2 : String) :
    ∀ (l : List String) (k : Nat) (acc : ℚ × Option Nat × Option String),
      acc.1 ≤ (bestCandidate used h2 k l acc).1 := by
  intro l
  induction l with
  | nil => intro k acc; simp [bestCandidate]
  | cons s rest ih =>
    intro k acc
    by_cases hm : some k ∈ used
    · rw [show bestCandidate used h2 k (s :: rest) acc
          = bestCandidate used h2 (k + 1) rest acc by simp [bestCandidate, hm]]
      exact ih (k + 1) acc
    · by_cases hlt : acc.1 < similarity s h2
      · rw [show bestCandidate used h2 k (s :: rest) acc
            = bestCandidate used h2 (k + 1) rest (similarity s h2, some k, some s) by
          simp [bestCandidate, hm, hlt]]
        exact le_trans (le_of_lt hlt) (ih (k + 1) _)
      · rw [show bestCandidate used h2 k (s :: rest) acc
            = bestCandidate used h2 (k + 1) rest acc by simp [bestCandidate, hm, hlt]]
        exact ih (k + 1) acc

theorem bestCandidate_le_one (used : Finset (Option Nat)) (h2 : String) :
    ∀ (l : List String) (k : Nat) (acc : ℚ × Option Nat × Option String),
      acc.1 ≤ 1 → (bestCandidate used h2 k l acc).1 ≤ 1 := by
  intro l
  induction l with
  | nil => intro k acc h; simpa [bestCandidate] using h
  | cons s rest ih =>
    intro k acc h
    by_cases hm : some k ∈ used
    · rw [show bestCandidate used h2 k (s :: rest) acc
          = bestCandidate used h2 (k + 1) rest acc by simp [bestCandidate, hm]]
      exact ih (k + 1) acc h
    · by_cases hlt : acc.1 < similarity s h2
      · rw [show bestCandidate used h2 k (s :: rest) acc
            = bestCandidate used h2 (k + 1) rest (similarity s h2, some k, some s) by
          simp [bestCandidate, hm, hlt]]
        exact ih (k + 1) _ (similarity_le_one s h2)
      · rw [show bestCandidate used h2 k (s :: rest) acc
            = bestCandidate used h2 (k + 1) rest acc by simp [bestCandidate, hm, hlt]]
        exact ih (k + 1) acc h

theorem bestCandidate_hit (used : Finset (Option Nat)) (h2 : String) :
    ∀ (l : List String) (k : Nat) (acc : ℚ × Option Nat × Option String),
      (∃ j s, l.get? j = some s ∧ some (k + j) ∉ used ∧ similarity s h2 = 1) →
      1 ≤ (bestCandidate used h2 k l acc).1 := by
  intro l
  induction l with
  | nil =>
    intro k acc h
    obtain ⟨j, s, hg, _, _⟩ := h
    exact absurd hg (by simp)
  | cons s0 rest ih =>
    intro k acc h
    obtain ⟨j, s, hg, hu, hs⟩ := h
    cases j with
    | zero =>
      have hs0 : s = s0 := by simpa using hg.symm
      subst hs0
      have hm : some k ∉ used := by simpa using hu
      by_cases hlt : acc.1 < similarity s h2
      · rw [show bestCandidate used h2 k (s :: rest) acc
            = bestCandidate used h2 (k + 1) rest (similarity s h2, some k, some s) by
          simp [bestCandidate, hm, hlt]]
        calc (1 : ℚ) = similarity s h2 := hs.symm
          _ ≤ _ := bestCandidate_mono used h2 rest (k + 1) _
      · rw [show bestCandidate used h2 k (s :: rest) acc
            = bestCandidate used h2 (k + 1) rest acc by simp [bestCandidate, hm, hlt]]
        have : (1 : ℚ) ≤ acc.1 := by rw [← hs]; exact le_of_not_lt hlt
        exact le_trans this (bestCandidate_mono used h2 rest (k + 1) acc)
    | succ j' =>
      have hg' : rest.get? j' = some s := by simpa using hg
      have hu' : some ((k + 1) + j') ∉ used := by
        rw [show (k + 1) + j' = k + (j' + 1) by omega]
        exact hu
      have hex : ∃ j s, rest.get? j = some s ∧ some ((k + 1) + j) ∉ used ∧ similarity s h2 = 1 :=
        ⟨j', s, hg', hu', hs⟩
      by_cases hm : some k ∈ used
      · rw [show bestCandidate used h2 k (s0 :: rest) acc
            = bestCandidate used h2 (k + 1) rest acc by simp [bestCandidate, hm]]
        exact ih (k + 1) acc hex
      · by_cases hlt : acc.1 < similarity s0 h2
        · rw [show bestCandidate used h2 k (s0 :: rest) acc
              = bestCandidate used h2 (k + 1) rest (similarity s0 h2, some k, some s0) by
            simp [bestCandidate, hm, hlt]]
          exact ih (k + 1) _ hex
        · rw [show bestCandidate used h2 k (s0 :: rest) acc
              = bestCandidate used h2 (k + 1) rest acc by simp [bestCandidate, hm, hlt]]
          exact ih (k + 1) acc hex

theorem bestCandidate_inv (used : Finset (Option Nat)) (h2 : String) :
    ∀ (l : List String) (k : Nat) (acc : ℚ × Option Nat × Option String),
      (acc.2.1 = none → acc.1 = 0) →
      (∀ i, acc.2.1 = some i → some i ∉ used ∧ i < k) →
      (acc.1 = 1 → ∃ s, acc.2.2 = some s ∧ similarity s h2 = 1) →
      ((bestCandidate used h2 k l acc).2.1 = none → (bestCandidate used h2 k l acc).1 = 0)
      ∧ (∀ i, (bestCandidate used h2 k l acc).2.1 = some i → some i ∉ used ∧ i < k + l.length)
      ∧ ((bestCandidate used h2 k l acc).1 = 1
          → ∃ s, (bestCandidate used h2 k l acc).2.2 = some s ∧ similarity s h2 = 1) := by
  intro l
  induction l with
  | nil =>
    intro k acc ha hb hc
    refine ⟨by simpa [bestCandidate] using ha, ?_, by simpa [bestCandidate] using hc⟩
    intro i hi
    rw [show (bestCandidate used h2 k [] acc) = acc from rfl] at hi
    obtain ⟨hu, hk⟩ := hb i hi
    exact ⟨hu, by simpa using Nat.lt_of_lt_of_le hk (by simp)⟩
  | cons s rest ih =>
    intro k acc ha hb hc
    by_cases hm : some k ∈ used
    · rw [show bestCandidate used h2 k (s :: rest) acc
          = bestCandidate used h2 (k + 1) rest acc by simp [bestCandidate, hm]]
      obtain ⟨r1, r2, r3⟩ := ih (k + 1) acc ha
        (fun i hi => by
          obtain ⟨hu, hk⟩ := hb i hi
          exact ⟨hu, by omega⟩) hc
      exact ⟨r1, fun i hi => by
        obtain ⟨hu, hk⟩ := r2 i hi
        exact ⟨hu, by simp; omega⟩, r3⟩
    · by_cases hlt : acc.1 < similarity s h2
      · rw [show bestCandidate used h2 k (s :: rest) acc
            = bestCandidate used h2 (k + 1) rest (similarity s h2, some k, some s) by
          simp [bestCandidate, hm, hlt]]
        obtain ⟨r1, r2, r3⟩ := ih (k + 1) (similarity s h2, some k, some s)
          (by intro hnone; exact absurd hnone (by simp))
          (by
            intro i hi
            have : i = k := by simpa using hi.symm
            subst this
            exact ⟨hm, by omega⟩)
          (by intro h1; exact ⟨s, rfl, by simpa using h1⟩)
        exact ⟨r1, fun i hi => by
          obtain ⟨hu, hk⟩ := r2 i hi
          exact ⟨hu, by simp; omega⟩, r3⟩
      · rw [show bestCandidate used h2 k (s :: rest) acc
            = bestCandidate used h2 (k + 1) rest acc by simp [bestCandidate, hm, hlt]]
        obtain ⟨r1, r2, r3⟩ := ih (k + 1) acc ha
          (fun i hi => by
            obtain ⟨hu, hk⟩ := hb i hi
            exact ⟨hu, by omega⟩) hc
        exact ⟨r1, fun i hi => by
          obtain ⟨hu, hk⟩ := r2 i hi
          exact ⟨hu, by simp; omega⟩, r3⟩

theorem matchStep_def (v1 : List String) (thr : ℚ) (st : MatchState) (h2 : String) :
    matchStep v1 thr st h2
      = if (bestCandidate st.used h2 0 v1 (0, none, none)).1 = 1 then
          { used := insert (bestCandidate st.used h2 0 v1 (0, none, none)).2.1 st.used,
            res := { st.res with unchanged := st.res.unchanged
              ++ [((bestCandidate st.used h2 0 v1 (0, none, none)).2.2, h2)] } }
        else if thr ≤ (bestCandidate st.used h2 0 v1 (0, none, none)).1 then
          { used := insert (bestCandidate st.used h2 0 v1 (0, none, none)).2.1 st.used,
            res := { st.res with modified := st.res.modified
              ++ [((bestCandidate st.used h2 0 v1 (0, none, none)).2.2, h2)] } }
        else { st with res := { st.res with added := st.res.added ++ [h2] } } := rfl

theorem matchStep_shape (v1 : List String) (thr : ℚ) (st : MatchState) (h2 : String)
    (hthr : 0 < thr) :
    (∃ i bs, some i ∉ st.used ∧ i < v1.length
      ∧ ((matchStep v1 thr st h2
            = { used := insert (some i) st.used,
                res := { st.res with unchanged := st.res.unchanged ++ [(bs, h2)] } })
        ∨ (matchStep v1 thr st h2
            = { used := insert (some i) st.used,
                res := { st.res with modified := st.res.modified ++ [(bs, h2)] } })))
    ∨ matchStep v1 thr st h2 = { st with res := { st.res with added := st.res.added ++ [h2] } } := by
  obtain ⟨hz, hidx, _⟩ := bestCandidate_inv st.used h2 v1 0 (0, none, none)
    (fun _ => rfl) (fun i hi => Option.noConfusion hi)
    (fun h1 => absurd h1 (by norm_num))
  rw [matchStep_def]
  set B := bestCandidate st.used h2 0 v1 (0, none, none) with hB
  by_cases h1 : B.1 = 1
  · left
    have hne : B.2.1 ≠ none := fun hnone => by
      rw [hz hnone] at h1
      exact absurd h1 (by norm_num)
    obtain ⟨i, hi⟩ := Option.ne_none_iff_exists.mp hne
    obtain ⟨hu, hk⟩ := hidx i hi.symm
    refine ⟨i, B.2.2, hu, by simpa using hk, Or.inl ?_⟩
    rw [if_pos h1, ← hi]
  · by_cases h2t : thr ≤ B.1
    · left
      have hne : B.2.1 ≠ none := fun hnone => by
        rw [hz hnone] at h2t
        exact absurd (lt_of_lt_of_le hthr h2t) (by norm_num)
      obtain ⟨i, hi⟩ := Option.ne_none_iff_exists.mp hne
      obtain ⟨hu, hk⟩ := hidx i hi.symm
      refine ⟨i, B.2.2, hu, by simpa using hk, Or.inr ?_⟩
      rw [if_neg h1, if_pos h2t, ← hi]
    · right
      rw [if_neg h1, if_neg h2t]

theorem matchStep_counts (v1 : List String) (thr : ℚ) (st : MatchState) (h2 : String) :
    (matchStep v1 thr st h2).res.unchanged.length + (matchStep v1 thr st h2).res.modified.length
        + (matchStep v1 thr st h2).res.added.length
      = st.res.unchanged.length + st.res.modified.length + st.res.added.length + 1
    ∧ (matchStep v1 thr st h2).res.removed = st.res.removed := by
  rw [matchStep_def]
  by_cases h1 : (bestCandidate st.used h2 0 v1 (0, none, none)).1 = 1
  · rw [if_pos h1]; exact ⟨by simp; omega, by simp⟩
  · by_cases h2t : thr ≤ (bestCandidate st.used h2 0 v1 (0, none, none)).1
    · rw [if_neg h1, if_pos h2t]; exact ⟨by simp; omega, by simp⟩
    · rw [if_neg h1, if_neg h2t]; exact ⟨by simp; omega, by simp⟩

theorem foldl_matchStep_inv (v1 : List String) (thr : ℚ) (hthr : 0 < thr) :
    ∀ (v2 : List String) (st : MatchState),
      st.used.card = st.res.unchanged.length + st.res.modified.length →
      (∀ u ∈ st.used, ∃ i, u = some i ∧ i < v1.length) →
      (v2.foldl (matchStep v1 thr) st).used.card
          = (v2.foldl (matchStep v1 thr) st).res.unchanged.length
            + (v2.foldl (matchStep v1 thr) st).res.modified.length
      ∧ (∀ u ∈ (v2.foldl (matchStep v1 thr) st).used, ∃ i, u = some i ∧ i < v1.length)
      ∧ (v2.foldl (matchStep v1 thr) st).res.unchanged.length
          + (v2.foldl (matchStep v1 thr) st).res.modified.length
          + (v2.foldl (matchStep v1 thr) st).res.added.length
        = st.res.unchanged.length + st.res.modified.length + st.res.added.length + v2.length
      ∧ (v2.foldl (matchStep v1 thr) st).res.removed = st.res.removed := by
  intro v2
  induction v2 with
  | nil => intro st h1 h2; exact ⟨h1, h2, by simp, rfl⟩
  | cons h rest ih =>
    intro st h1 h2
    rw [List.foldl_cons]
    have hstep := matchStep_shape v1 thr st h hthr
    have hcounts := matchStep_counts v1 thr st h
    have hnext : (matchStep v1 thr st h).used.card
          = (matchStep v1 thr st h).res.unchanged.length
            + (matchStep v1 thr st h).res.modified.length
        ∧ ∀ u ∈ (matchStep v1 thr st h).used, ∃ i, u = some i ∧ i < v1.length := by
      rcases hstep with ⟨i, bs, hu, hk, hcase | hcase⟩ | hcase
      · rw [hcase]
        refine ⟨?_, ?_⟩
        · show (insert (some i) st.used).card = (st.res.unchanged ++ [(bs, h)]).length + _
          rw [Finset.card_insert_of_not_mem hu]
          simp only [List.length_append, List.length_singleton]
          omega
        · intro u hu2
          rcases Finset.mem_insert.mp hu2 with h3 | h3
          · exact ⟨i, h3, hk⟩
          · exact h2 u h3
      · rw [hcase]
        refine ⟨?_, ?_⟩
        · show (insert (some i) st.used).card = _ + (st.res.modified ++ [(bs, h)]).length
          rw [Finset.card_insert_of_not_mem hu]
          simp only [List.length_append, List.length_singleton]
          omega
        · intro u hu2
          rcases Finset.mem_insert.mp hu2 with h3 | h3
          · exact ⟨i, h3, hk⟩
          · exact h2 u h3
      · rw [hcase]
        exact ⟨h1, h2⟩
    obtain ⟨r1, r2, r3, r4⟩ := ih (matchStep v1 thr st h) hnext.1 hnext.2
    refine ⟨r1, r2, ?_, by rw [r4, hcounts.2]⟩
    rw [r3, hcounts.1]
    simp
    omega

theorem collectRemoved_length (used : Finset (Option Nat)) :
    ∀ (l : List String) (k : Nat),
      (collectRemoved used k l).length + countUsed used k l.length = l.length := by
  intro l
  induction l with
  | nil => intro k; rfl
  | cons s rest ih =>
    intro k
    show (if some k ∈ used then collectRemoved used (k + 1) rest
          else s :: collectRemoved used (k + 1) rest).length
        + ((if some k ∈ used then 1 else 0) + countUsed used (k + 1) rest.length)
      = rest.length + 1
    by_cases hm : some k ∈ used
    · rw [if_pos hm, if_pos hm]
      have := ih (k + 1)
      omega
    · rw [if_neg hm, if_neg hm]
      have := ih (k + 1)
      simp only [List.length_cons]
      omega

theorem countUsed_congr : ∀ (n k : Nat) (u1 u2 : Finset (Option Nat)),
    (∀ i, k ≤ i → i < k + n → (some i ∈ u1 ↔ some i ∈ u2)) →
    countUsed u1 k n = countUsed u2 k n := by
  intro n
  induction n with
  | zero => intro k u1 u2 _; rfl
  | succ m ih =>
    intro k u1 u2 h
    show (if some k ∈ u1 then 1 else 0) + countUsed u1 (k + 1) m
        = (if some k ∈ u2 then 1 else 0) + countUsed u2 (k + 1) m
    rw [ih (k + 1) u1 u2 (fun i hi1 hi2 => h i (by omega) (by omega))]
    congr 1
    by_cases hm : some k ∈ u1
    · rw [if_pos hm, if_pos ((h k (le_refl k) (by omega)).mp hm)]
    · rw [if_neg hm, if_neg (fun hc => hm ((h k (le_refl k) (by omega)).mpr hc))]

theorem countUsed_card : ∀ (n : Nat) (used : Finset (Option Nat)) (k : Nat),
    (∀ u ∈ used, ∃ i, u = some i ∧ k ≤ i ∧ i < k + n) →
    countUsed used k n = used.card := by
  intro n
  induction n with
  | zero =>
    intro used k h
    have : used = ∅ := Finset.eq_empty_of_forall_not_mem (fun u hu => by
      obtain ⟨i, _, h2, h3⟩ := h u hu
      omega)
    rw [this]
    rfl
  | succ m ih =>
    intro used k h
    show (if some k ∈ used then 1 else 0) + countUsed used (k + 1) m = used.card
    by_cases hm : some k ∈ used
    · rw [if_pos hm]
      have hcong : countUsed used (k + 1) m = countUsed (used.erase (some k)) (k + 1) m := by
        refine countUsed_congr m (k + 1) used (used.erase (some k)) (fun i hi1 _ => ?_)
        rw [Finset.mem_erase]
        constructor
        · intro h3
          exact ⟨fun he => by
            have : i = k := by simpa using he
            omega, h3⟩
        · exact fun h3 => h3.2
      rw [hcong, ih (used.erase (some k)) (k + 1) (fun u hu => by
        obtain ⟨h3, h4⟩ := Finset.mem_erase.mp hu
        obtain ⟨i, hi1, hi2, hi3⟩ := h u h4
        refine ⟨i, hi1, ?_, by omega⟩
        rcases Nat.lt_or_ge i (k + 1) with h5 | h5
        · exfalso
          have : i = k := by omega
          rw [hi1, this] at h3
          exact h3 rfl
        · exact h5)]
      rw [Finset.card_erase_of_mem hm]
      have : 0 < used.card := Finset.card_pos.mpr ⟨some k, hm⟩
      omega
    · rw [if_neg hm]
      rw [ih used (k + 1) (fun u hu => by
        obtain ⟨i, hi1, hi2, hi3⟩ := h u hu
        refine ⟨i, hi1, ?_, by omega⟩
        rcases Nat.lt_or_ge i (k + 1) with h5 | h5
        · exfalso
          have : i = k := by omega
          rw [hi1, this] at hu
          exact hm hu
        · exact h5)]
      omega

theorem foldl_matchStep_unchanged_mono (v1 : List String) (thr : ℚ) :
    ∀ (l : List String) (st : MatchState),
      ∃ suf, (l.foldl (matchStep v1 thr) st).res.unchanged = st.res.unchanged ++ suf := by
  intro l
  induction l with
  | nil => intro st; exact ⟨[], by simp⟩
  | cons h rest ih =>
    intro st
    rw [List.foldl_cons]
    obtain ⟨suf, hsuf⟩ := ih (matchStep v1 thr st h)
    by_cases hb1 : (bestCandidate st.used h 0 v1 (0, none, none)).1 = 1
    · refine ⟨((bestCandidate st.used h 0 v1 (0, none, none)).2.2, h) :: suf, ?_⟩
      rw [hsuf, matchStep_def, if_pos hb1]
      simp
    · by_cases hb2 : thr ≤ (bestCandidate st.used h 0 v1 (0, none, none)).1
      · exact ⟨suf, by rw [hsuf, matchStep_def, if_neg hb1, if_pos hb2]⟩
      · exact ⟨suf, by rw [hsuf, matchStep_def, if_neg hb1, if_neg hb2]⟩

/-- C1 counterexample: at threshold `0` (which the claim's range `[0,1]`
includes) totality fails.  With `old = []` and `new = [("H1","A")]` the
candidate scan finds nothing, `best_ratio` stays `0.0`, and since
`0.0 >= 0` the heading is appended to `modified` paired with `None`:
`len(unchanged)+len(modified)+len(removed) = 1 ≠ 0 = len(old)`. -/
theorem C1_counterexample :
    ¬ ((analyze_headings [] [("H1", "A")] 0).unchanged.length
        + (analyze_headings [] [("H1", "A")] 0).modified.length
        + (analyze_headings [] [("H1", "A")] 0).removed.length
      = ([] : List (String × String)).length) := by
  decide

/-- C1 (amended): for every two heading sequences and every strictly positive
threshold in `(0, 1]`, the alignment produced by `analyze_headings` is total:
`len(unchanged)+len(modified)+len(removed) = len(old)` and
`len(unchanged)+len(modified)+len(added) = len(new)`.  (At threshold exactly
`0` the first equation can fail, because a `new` heading with no available
candidate is classified `modified` with partner `None` and adds a `None`
entry to the used set.) -/
theorem C1_alignment_totality_amended (hs1 hs2 : List (String × String)) (thr : ℚ)
    (h0 : 0 < thr) (_h1 : thr ≤ 1) :
    (analyze_headings hs1 hs2 thr).unchanged.length
        + (analyze_headings hs1 hs2 thr).modified.length
        + (analyze_headings hs1 hs2 thr).removed.length
      = hs1.length
    ∧ (analyze_headings hs1 hs2 thr).unchanged.length
        + (analyze_headings hs1 hs2 thr).modified.length
        + (analyze_headings hs1 hs2 thr).added.length
      = hs2.length := by
  set v1 := hs1.map headingString with hv1
  set v2 := hs2.map headingString with hv2
  set F := v2.foldl (matchStep v1 thr) {} with hF
  have hdef : analyze_headings hs1 hs2 thr
      = { F.res with removed := collectRemoved F.used 0 v1 } := rfl
  obtain ⟨r1, r2, r3, _⟩ := foldl_matchStep_inv v1 thr h0 v2 {}
    (by simp) (fun u hu => absurd hu (Finset.not_mem_empty u))
  rw [← hF] at r1 r2 r3
  have hrm : (collectRemoved F.used 0 v1).length + countUsed F.used 0 v1.length = v1.length :=
    collectRemoved_length F.used v1 0
  have hcard : countUsed F.used 0 v1.length = F.used.card :=
    countUsed_card v1.length F.used 0 (fun u hu => by
      obtain ⟨i, hi1, hi2⟩ := r2 u hu
      exact ⟨i, hi1, by omega, by omega⟩)
  have hlen1 : v1.length = hs1.length := by rw [hv1, List.length_map]
  have hlen2 : v2.length = hs2.length := by rw [hv2, List.length_map]
  have r3' : F.res.unchanged.length + F.res.modified.length + F.res.added.length
      = v2.length := by simpa using r3
  rw [hdef]
  constructor
  · show F.res.unchanged.length + F.res.modified.length
        + (collectRemoved F.used 0 v1).length = hs1.length
    omega
  · show F.res.unchanged.length + F.res.modified.length + F.res.added.length = hs2.length
    omega

theorem C1_alignment_totality_amended_witness :
    ((0 : ℚ) < 7 / 10) ∧ ((7 / 10 : ℚ) ≤ 1)
    ∧ ((analyze_headings [("H2", "A")] [("H2", "A"), ("H3", "B")] (7 / 10)).unchanged.length
        + (analyze_headings [("H2", "A")] [("H2", "A"), ("H3", "B")] (7 / 10)).modified.length
        + (analyze_headings [("H2", "A")] [("H2", "A"), ("H3", "B")] (7 / 10)).removed.length
      = 1)
    ∧ ((analyze_headings [("H2", "A")] [("H2", "A"), ("H3", "B")] (7 / 10)).unchanged.length
        + (analyze_headings [("H2", "A")] [("H2", "A"), ("H3", "B")] (7 / 10)).modified.length
        + (analyze_headings [("H2", "A")] [("H2", "A"), ("H3", "B")] (7 / 10)).added.length
      = 2) := by
  have h := C1_alignment_totality_amended [("H2", "A")] [("H2", "A"), ("H3", "B")] (7 / 10)
    (by norm_num) (by norm_num)
  exact ⟨by norm_num, by norm_num, h.1, h.2⟩

/-- C6: if, when a `new` heading is processed, some `old` heading string
equal to it has an index not yet in the used set, then that step classifies
the heading as `unchanged` (the pair `(old string, new string)` — equal
strings — is appended to `unchanged`; `modified` and `added` are untouched),
for every threshold; consequently the pair appears in the `unchanged` bucket
of the full `analyze_headings` run.  (The exact-ratio test `best_ratio ==
1.0` runs before the threshold comparison, and an equal unused candidate
forces `best_ratio = 1`.) -/
theorem C6_exact_match_unchanged (hs1 pre post : List (String × String)) (tag txt : String)
    (thr : ℚ)
    (hex : ∃ i, (hs1.map headingString).get? i = some (headingString (tag, txt))
        ∧ some i ∉ ((pre.map headingString).foldl
            (matchStep (hs1.map headingString) thr) {}).used) :
    (matchStep (hs1.map headingString) thr
        ((pre.map headingString).foldl (matchStep (hs1.map headingString) thr) {})
        (headingString (tag, txt))).res.unchanged
      = ((pre.map headingString).foldl
            (matchStep (hs1.map headingString) thr) {}).res.unchanged
        ++ [(some (headingString (tag, txt)), headingString (tag, txt))]
    ∧ (matchStep (hs1.map headingString) thr
        ((pre.map headingString).foldl (matchStep (hs1.map headingString) thr) {})
        (headingString (tag, txt))).res.modified
      = ((pre.map headingString).foldl
            (matchStep (hs1.map headingString) thr) {}).res.modified
    ∧ (matchStep (hs1.map headingString) thr
        ((pre.map headingString).foldl (matchStep (hs1.map headingString) thr) {})
        (headingString (tag, txt))).res.added
      = ((pre.map headingString).foldl
            (matchStep (hs1.map headingString) thr) {}).res.added
    ∧ (some (headingString (tag, txt)), headingString (tag, txt))
        ∈ (analyze_headings hs1 (pre ++ (tag, txt) :: post) thr).unchanged := by
  set v1 := hs1.map headingString with hv1
  set ST := (pre.map headingString).foldl (matchStep v1 thr) {} with hST
  set hstr := headingString (tag, txt) with hh
  obtain ⟨i, hg, hu⟩ := hex
  set B := bestCandidate ST.used hstr 0 v1 (0, none, none) with hB
  have hle : B.1 ≤ 1 := bestCandidate_le_one ST.used hstr v1 0 _ (by norm_num)
  have hge : 1 ≤ B.1 :=
    bestCandidate_hit ST.used hstr v1 0 _ ⟨i, hstr, hg, by simpa using hu, similarity_self hstr⟩
  have hb1 : B.1 = 1 := le_antisymm hle hge
  obtain ⟨_, _, hshape⟩ := bestCandidate_inv ST.used hstr v1 0 (0, none, none)
    (fun _ => rfl) (fun j hj => Option.noConfusion hj) (fun hq => absurd hq (by norm_num))
  obtain ⟨s, hs_eq, hs_sim⟩ := hshape hb1
  have hs_h : s = hstr := similarity_eq_one s hstr hs_sim
  subst hs_h
  have hstep : matchStep v1 thr ST hstr
      = { used := insert B.2.1 ST.used,
          res := { ST.res with unchanged := ST.res.unchanged ++ [(some hstr, hstr)] } } := by
    rw [matchStep_def, ← hB, if_pos hb1, hs_eq]
  refine ⟨by rw [hstep], by rw [hstep], by rw [hstep], ?_⟩
  have hsplit : ((pre ++ (tag, txt) :: post).map headingString)
      = (pre.map headingString) ++ hstr :: (post.map headingString) := by
    rw [List.map_append, List.map_cons]
  have hunch : (analyze_headings hs1 (pre ++ (tag, txt) :: post) thr).unchanged
      = (((pre ++ (tag, txt) :: post).map headingString).foldl (matchStep v1 thr) {}).res.unchanged :=
    rfl
  rw [hunch, hsplit, List.foldl_append, List.foldl_cons, ← hST, hstep]
  obtain ⟨suf, hsuf⟩ := foldl_matchStep_unchanged_mono v1 thr (post.map headingString)
    { used := insert B.2.1 ST.used,
      res := { ST.res with unchanged := ST.res.unchanged ++ [(some hstr, hstr)] } }
  rw [hsuf]
  show (some hstr, hstr) ∈ (ST.res.unchanged ++ [(some hstr, hstr)]) ++ suf
  simp

theorem C6_exact_match_unchanged_witness :
    (∃ i, (([("H2", "A")] : List (String × String)).map headingString).get? i
        = some (headingString ("H2", "A"))
      ∧ some i ∉ ((([] : List (String × String)).map headingString).foldl
          (matchStep (([("H2", "A")] : List (String × String)).map headingString) (7 / 10))
          {}).used)
    ∧ (some (headingString ("H2", "A")), headingString ("H2", "A"))
        ∈ (analyze_headings [("H2", "A")] ([] ++ ("H2", "A") :: []) (7 / 10)).unchanged := by
  have hex : ∃ i, (([("H2", "A")] : List (String × String)).map headingString).get? i
      = some (headingString ("H2", "A"))
    ∧ some i ∉ ((([] : List (String × String)).map headingString).foldl
        (matchStep (([("H2", "A")] : List (String × String)).map headingString) (7 / 10))
        {}).used := ⟨0, rfl, by simp [MatchState.used]⟩
  exact ⟨hex, (C6_exact_match_unchanged [("H2", "A")] [] [] "H2" "A" (7 / 10) hex).2.2.2⟩

/-- C4 counterexample: the row `["URL", "Meta Title", "Hello"]` instantiates
the claim at `i = 1` (cell 1 normalizes to the trigger key `"meta title"`,
cell 2 `"Hello"` is plain text), yet `"Hello"` is not stored under
`Meta Title`: the row-pair cursor consumed cells 0–1 as the pair
`URL → "Meta Title"` and then stopped, so cell 1 is never examined as a
label.  (The per-line pass does append every cell line to paragraphs.) -/
theorem C4_counterexample :
    clean_label_text "Meta Title" = "meta title"
    ∧ triggers "meta title" = some "Meta Title"
    ∧ (parse_table_for_meta_and_others [["URL", "Meta Title", "Hello"]] {}).meta.metaTitle = ""
    ∧ (parse_table_for_meta_and_others [["URL", "Meta Title", "Hello"]] {}).meta.url
        = "Meta Title"
    ∧ (parse_table_for_meta_and_others [["URL", "Meta Title", "Hello"]] {}).paragraphs
        = ["URL", "Meta Title", "Hello"] := by
  refine ⟨by decide, by decide, by decide, by decide, by decide⟩

/-- C4 (amended): the row-pair pass and the per-line pass both run
unconditionally over the same row's cells, but the row-pair conjunct only
holds for a cell the row-pair cursor actually examines as a label.  For a
two-cell row whose first cell normalizes to a trigger key and whose cells
contain only blank or plain lines (no inline metadata, no headings): the
second cell's stripped text is stored as the field's metadata value AND
every stripped non-blank line of both cells is also appended to the
paragraph sequence by the per-line pass. -/
theorem C4_double_processing_amended (c v : String) (st : ParseState) (field : String)
    (hc : triggers (clean_label_text (pyStripS c)) = some field)
    (hcl : ∀ ln ∈ splitLinesS (pyStripS c), pyStripS ln = ""
        ∨ (try_extract_inline_meta (pyStripS ln) = none ∧ headingMatch (pyStripS ln) = none))
    (hvl : ∀ ln ∈ splitLinesS (pyStripS v), pyStripS ln = ""
        ∨ (try_extract_inline_meta (pyStripS ln) = none ∧ headingMatch (pyStripS ln) = none)) :
    parse_table_for_meta_and_others [[c, v]] st
      = { meta := setMeta st.meta field (pyStripS v),
          headings := st.headings,
          paragraphs := st.paragraphs ++ plainLines (pyStripS c) ++ plainLines (pyStripS v) } := by
  have hvv : pyStripS (pyStripS v) = pyStripS v := congrArg String.mk (pyStripL_idem v.data)
  have hpair : parse_meta_fields_from_row [pyStripS c, pyStripS v] st.meta
      = setMeta st.meta field (pyStripS v) := by
    conv_lhs => rw [parse_meta_fields_from_row]
    simp only [hc]
    rw [show parse_meta_fields_from_row [] (setMeta st.meta field (pyStripS (pyStripS v)))
        = setMeta st.meta field (pyStripS (pyStripS v)) from rfl, hvv]
  show ([[c, v]].foldl processRow st) = _
  rw [List.foldl_cons, List.foldl_nil]
  show ([c, v].map pyStripS).foldl (fun s ctext => (splitLinesS ctext).foldl processCellLine s)
      { st with meta := parse_meta_fields_from_row ([c, v].map pyStripS) st.meta } = _
  rw [show ([c, v].map pyStripS) = [pyStripS c, pyStripS v] from rfl, hpair]
  rw [List.foldl_cons, List.foldl_cons, List.foldl_nil]
  rw [foldl_processCellLine_plain _ _ hcl, foldl_processCellLine_plain _ _ hvl]
  simp [plainLines, List.append_assoc]

theorem C4_double_processing_amended_witness :
    triggers (clean_label_text (pyStripS "Title Tag")) = some "Meta Title"
    ∧ parse_table_for_meta_and_others [["Title Tag", "My new title"]] {}
        = { meta := { metaTitle := "My new title" },
            paragraphs := ["Title Tag", "My new title"] } := by
  refine ⟨by decide, ?_⟩
  have h := C4_double_processing_amended "Title Tag" "My new title" {} "Meta Title"
    (by decide) (by decide) (by decide)
  rw [h]
  decide

/-- C2 counterexample: for tag `H1` the claim fails.  The line `"H1: Some
intro"` matches the heading pattern, but the inline-metadata check runs
first and `"h1"` is a trigger key, so the body pass consumes the line as
metadata (`meta["H1"]`) and appends no heading. -/
theorem C2_counterexample :
    headingMatch "H1: Some intro" = some ("H1", "Some intro")
    ∧ try_extract_inline_meta "H1: Some intro" = some ("H1", "Some intro")
    ∧ (parse_paragraphs_for_meta ["H1: Some intro"] {}).headings = []
    ∧ (parse_paragraphs_for_meta ["H1: Some intro"] {}).meta.h1 = some "Some intro"
    ∧ (parse_paragraphs_for_meta ["H1: Some intro"] {}).paragraphs = [] := by
  refine ⟨by decide, by decide, by decide, by decide, by decide⟩

/-- C2 (amended): for every tag in {H2..H6} (H1 is excluded: an `H1:` line is
consumed as inline metadata because `"h1"` is a trigger key) and every
newline-free text, classifying the single line `f"{tag}: {text}"` through
the body-pass line classifier appends exactly the heading (tag, text
trimmed) to the heading sequence, with no metadata field set and no
paragraph emitted for that line. -/
theorem C2_heading_roundtrip_amended (d : Char) (hd : d ∈ (['2', '3', '4', '5', '6'] : List Char))
    (text : String) (hnl : '\n' ∉ text.data) (st : ParseState) :
    parse_paragraphs_for_meta [⟨'H' :: d :: ':' :: ' ' :: text.data⟩] st
      = { st with headings := st.headings ++ [((⟨['H', d]⟩ : String), pyStripS text)] } := by
  have hfacts : isPySpace d = false ∧ d ≠ '(' ∧ d ≠ ':' ∧ '1' ≤ d ∧ d ≤ '6'
      ∧ pyLowerChar d = d ∧ d ≠ '1' := by
    fin_cases hd <;>
      exact ⟨by decide, by decide, by decide, by decide, by decide, by decide, by decide⟩
  obtain ⟨h1, h2, h3, h4, h5, h6, h7⟩ := hfacts
  obtain ⟨hpl, hinl, hhm⟩ :=
    bodyLine_heading_classification d (rstripL (' ' :: text.data)) h1 h2 h3 h4 h5 h6 h7
  have hstrip : pyStripS ⟨'H' :: d :: ':' :: ' ' :: text.data⟩
      = ⟨'H' :: d :: ':' :: rstripL (' ' :: text.data)⟩ := by
    show (⟨pyStripL ('H' :: d :: ':' :: ' ' :: text.data)⟩ : String) = _
    unfold pyStripL
    rw [lstripL_cons_of_not _ _ (by decide), rstripL_cons_of_not _ _ (by decide),
        rstripL_cons_of_not _ _ (by simp [h1]), rstripL_cons_of_not _ _ (by decide)]
  have hnlR : '\n' ∉ rstripL (' ' :: text.data) := fun hm => by
    rcases List.mem_cons.mp (mem_rstripL _ _ hm) with h | h
    · exact absurd h (by decide)
    · exact hnl h
  have hg2 : pyStripS ⟨((rstripL (' ' :: text.data)).dropWhile isPySpace).takeWhile (· ≠ '\n')⟩
      = pyStripS text := by
    have hnl2 : '\n' ∉ (rstripL (' ' :: text.data)).dropWhile isPySpace :=
      fun hm => hnlR ((List.dropWhile_sublist isPySpace).mem hm)
    rw [takeWhile_ne_newline_of_not_mem _ hnl2]
    show (⟨pyStripL (lstripL (rstripL (' ' :: text.data)))⟩ : String) = ⟨pyStripL text.data⟩
    rw [show pyStripL (lstripL (rstripL (' ' :: text.data)))
        = rstripL (lstripL (lstripL (rstripL (' ' :: text.data)))) from rfl]
    rw [lstripL_rstripL_comm, lstripL_cons_of_space _ _ (by decide)]
    exact congrArg String.mk (pyStripL_idem text.data)
  conv_lhs => rw [parse_paragraphs_for_meta]
  rw [hstrip]
  rw [if_neg (by simp [String.ext_iff])]
  simp only [hpl, hinl, hhm]
  rw [hg2]

theorem C2_heading_roundtrip_amended_witness :
    ('2' ∈ (['2', '3', '4', '5', '6'] : List Char))
    ∧ ('\n' ∉ "Intro".data)
    ∧ parse_paragraphs_for_meta ["H2: Intro"] {}
        = { headings := [("H2", "Intro")] } := by
  refine ⟨by decide, by decide, ?_⟩
  have h := C2_heading_roundtrip_amended '2' (by decide) "Intro" (by decide) {}
  rw [show (⟨'H' :: '2' :: ':' :: ' ' :: "Intro".data⟩ : String) = "H2: Intro" from by decide] at h
  rw [h]
  decide

/-- C5: the table-level passes run strictly after the body-level pass inside
`extract_content`, so when the table passes determine a field's value (they
set it regardless of what the incoming map holds) and the body pass set the
same field to a different value, the final `ParsedDocument` carries the
table-level value. -/
theorem C5_table_overwrites_body (doc : Document) (field t b : String)
    (htable : ∀ st : ParseState,
      getMeta (doc.tables.foldl (fun st table => parse_table_for_meta_and_others table st) st).meta
          field = some t)
    (_hbody : getMeta (bodyState doc).meta field = some b)
    (hne : b ≠ t) :
    getMeta (extract_content doc).meta field = some t
    ∧ getMeta (extract_content doc).meta field ≠ some b := by
  have he : extract_content doc
      = doc.tables.foldl (fun st table => parse_table_for_meta_and_others table st) (bodyState doc) :=
    rfl
  have h1 : getMeta (extract_content doc).meta field = some t := by
    rw [he]
    exact htable (bodyState doc)
  exact ⟨h1, by rw [h1]; exact fun hc => hne (by injection hc with h3; exact h3.symm)⟩

theorem C5_table_overwrites_body_witness :
    getMeta (bodyState ⟨["Meta Title: A"], [[["Title Tag", "B"]]]⟩).meta "Meta Title" = some "A"
    ∧ ("A" : String) ≠ "B"
    ∧ getMeta (extract_content ⟨["Meta Title: A"], [[["Title Tag", "B"]]]⟩).meta "Meta Title"
        = some "B" := by
  refine ⟨by decide, by decide, ?_⟩
  exact (C5_table_overwrites_body ⟨["Meta Title: A"], [[["Title Tag", "B"]]]⟩
    "Meta Title" "B" "A" (fun st => rfl) (by decide) (by decide)).1

theorem C9_group_content_shape_witness :
    ({ heading := some "H2: T", paragraphs := [] : Section })
        ∈ group_content_by_headings [("H2", "T")] ["p1"]
    ∧ (group_content_by_headings [("H2", "T")] ["p1"]).drop 1
        = [{ heading := none, paragraphs := ["p1"] : Section }] := by
  have h := C9_group_content_shape [("H2", "T")] ["p1"]
  refine ⟨?_, by simpa using h.2.1⟩
  have ht := h.1
  have : ({ heading := some "H2: T", paragraphs := [] : Section })
      ∈ (group_content_by_headings [("H2", "T")] ["p1"]).take 1 := by
    rw [show (1 : Nat) = ([("H2", "T")] : List (String × String)).length from rfl, ht]
    decide
  exact List.mem_of_mem_take this
